import Mathlib

/-!
Verification of the Notion workspace tooling repository.

The development embeds the block data model and the algorithmic core of the
repository (block-tree fetching, text chunking, the checkbox and quote
converters, rich-text find-and-replace, flat text extraction, and the chunked
audio field writer) as executable Lean definitions, and proves the frozen
claims about them.
-/

namespace NotionEdit

/-- One rich-text span of a block, as the Notion API delivers it.
The fields model item.type, plain_text, text.content, text.link.url and the
flat href field.  Absent string fields are modelled as the empty string,
matching the JavaScript truthiness guards in the source. -/
structure RichText where
  rtype : String
  plain : String
  content : String
  linkUrl : String
  href : String
  deriving DecidableEq, Repr

/-- A block of a Notion page: identifier, type tag, has_children flag,
rich-text payload, color, optional checked state (present only on to_do
blocks) and the child blocks reachable through blocks.children.list. -/
inductive Block : Type where
  | mk : Nat → String → Bool → List RichText → String → Option Bool → List Block → Block

def Block.id : Block → Nat
  | .mk i _ _ _ _ _ _ => i

def Block.btype : Block → String
  | .mk _ t _ _ _ _ _ => t

def Block.hasChildren : Block → Bool
  | .mk _ _ hc _ _ _ _ => hc

def Block.richText : Block → List RichText
  | .mk _ _ _ rt _ _ _ => rt

def Block.color : Block → String
  | .mk _ _ _ _ c _ _ => c

def Block.checked : Block → Option Bool
  | .mk _ _ _ _ _ ch _ => ch

def Block.children : Block → List Block
  | .mk _ _ _ _ _ _ cs => cs

/-- Rebuild a block with a new child list, keeping every other field. -/
def Block.withChildren : Block → List Block → Block
  | .mk i t hc rt c ch _, cs => .mk i t hc rt c ch cs

@[simp] theorem Block.id_mk (i t hc rt c ch cs) :
    (Block.mk i t hc rt c ch cs).id = i := rfl

@[simp] theorem Block.btype_mk (i t hc rt c ch cs) :
    (Block.mk i t hc rt c ch cs).btype = t := rfl

@[simp] theorem Block.hasChildren_mk (i t hc rt c ch cs) :
    (Block.mk i t hc rt c ch cs).hasChildren = hc := rfl

@[simp] theorem Block.richText_mk (i t hc rt c ch cs) :
    (Block.mk i t hc rt c ch cs).richText = rt := rfl

@[simp] theorem Block.color_mk (i t hc rt c ch cs) :
    (Block.mk i t hc rt c ch cs).color = c := rfl

@[simp] theorem Block.checked_mk (i t hc rt c ch cs) :
    (Block.mk i t hc rt c ch cs).checked = ch := rfl

@[simp] theorem Block.children_mk (i t hc rt c ch cs) :
    (Block.mk i t hc rt c ch cs).children = cs := rfl

@[simp] theorem Block.withChildren_mk (i t hc rt c ch cs cs') :
    (Block.mk i t hc rt c ch cs).withChildren cs' = .mk i t hc rt c ch cs' := rfl

@[simp] theorem Block.withChildren_self (b : Block) :
    b.withChildren b.children = b := by
  cases b with
  | mk i t hc rt c ch cs => rfl

theorem Block.sizeOf_pos (b : Block) : 0 < sizeOf b := by
  cases b with
  | mk i t hc rt c ch cs => simp only [Block.mk.sizeOf_spec]; omega

theorem Block.sizeOf_children_lt (b : Block) : sizeOf b.children < sizeOf b := by
  cases b with
  | mk i t hc rt c ch cs =>
    simp only [Block.children, Block.mk.sizeOf_spec]
    omega

theorem sizeOf_list_pos (l : List Block) : 0 < sizeOf l := by
  cases l with
  | nil => simp only [List.nil.sizeOf_spec]; omega
  | cons b rest => simp only [List.cons.sizeOf_spec]; omega

theorem sizeOf_tail_lt (b : Block) (rest : List Block) :
    sizeOf rest < sizeOf (b :: rest) := by
  simp only [List.cons.sizeOf_spec]
  have := Block.sizeOf_pos b
  omega

theorem sizeOf_children_lt_cons (b : Block) (rest : List Block) :
    sizeOf b.children < sizeOf (b :: rest) := by
  have h1 := Block.sizeOf_children_lt b
  simp only [List.cons.sizeOf_spec]
  omega

theorem sizeOf_take_le (l : List Block) (n : Nat) : sizeOf (l.take n) ≤ sizeOf l := by
  induction l generalizing n with
  | nil => simp
  | cons b rest ih =>
    cases n with
    | zero =>
      simp only [List.take_zero, List.nil.sizeOf_spec, List.cons.sizeOf_spec]
      have := Block.sizeOf_pos b
      have := sizeOf_list_pos rest
      omega
    | succ n =>
      simp only [List.take_succ_cons, List.cons.sizeOf_spec]
      have := ih n
      omega

theorem sizeOf_drop_le (l : List Block) (n : Nat) : sizeOf (l.drop n) ≤ sizeOf l := by
  induction l generalizing n with
  | nil => simp
  | cons b rest ih =>
    cases n with
    | zero => simp
    | succ n =>
      simp only [List.drop_succ_cons, List.cons.sizeOf_spec]
      have := ih n
      have := Block.sizeOf_pos b
      omega

theorem sizeOf_drop_lt (b : Block) (rest : List Block) (n : Nat) (hn : 1 ≤ n) :
    sizeOf ((b :: rest).drop n) < sizeOf (b :: rest) := by
  cases n with
  | zero => omega
  | succ n =>
    simp only [List.drop_succ_cons, List.cons.sizeOf_spec]
    have := sizeOf_drop_le rest n
    have := Block.sizeOf_pos b
    omega

/-- Induction over lists of blocks that provides the inductive hypothesis both
for the child list of the head block and for the tail, matching the recursion
pattern of every tree walk in the repository. -/
theorem blockList_ind (P : List Block → Prop) (h0 : P [])
    (h1 : ∀ b rest, P b.children → P rest → P (b :: rest)) :
    ∀ l, P l := by
  have key : ∀ n l, sizeOf l ≤ n → P l := by
    intro n
    induction n with
    | zero =>
      intro l hl
      cases l with
      | nil => exact h0
      | cons b rest =>
        exfalso
        have := sizeOf_list_pos (b :: rest)
        omega
    | succ n ih =>
      intro l hl
      cases l with
      | nil => exact h0
      | cons b rest =>
        apply h1
        · apply ih
          have := sizeOf_children_lt_cons b rest
          omega
        · apply ih
          have := sizeOf_tail_lt b rest
          omega
  intro l
  exact key (sizeOf l) l (le_refl _)

/-! ### Block Tree Fetcher (getAllBlocksFromPage)

The source function paginates the children of a container in batches of up to
100 blocks (notion.blocks.children.list with page_size 100, following the
returned cursor until has_more is false), pushes each block of a batch and
recursively descends into any block whose has_children flag is set unless its
type is child_page or child_database.  fetchPages models the while loop over
the pagination cursor (the undrained suffix of the sibling list stands for the
cursor position) and fetchBatch models the for loop over one returned batch. -/

mutual

def fetchBatch : List Block → List Block
  | [] => []
  | b :: rest =>
    b :: ((if b.hasChildren && !(b.btype == "child_page") && !(b.btype == "child_database")
            then fetchPages b.children else []) ++ fetchBatch rest)
  termination_by l => 2 * sizeOf l
  decreasing_by
  all_goals first
    | (have h := sizeOf_children_lt_cons b rest; omega)
    | (have h := sizeOf_tail_lt b rest; omega)

def fetchPages : List Block → List Block
  | [] => []
  | b :: rest =>
    fetchBatch ((b :: rest).take 100) ++ fetchPages ((b :: rest).drop 100)
  termination_by l => 2 * sizeOf l + 1
  decreasing_by
  all_goals first
    | (have h := sizeOf_take_le (b :: rest) 100; omega)
    | (have h := sizeOf_drop_lt b rest 100 (by omega); omega)

end

/-- Spec-side container types: block types that represent separate addressable
containers (sub-pages, linked databases), listed as leaves and not descended
into. -/
def isSeparateContainer (t : String) : Bool :=
  t == "child_page" || t == "child_database"

/-- Modelled from the spec wording of the Block Tree Fetcher contract: the
output is the ordered sequence of descendant blocks in which siblings appear
in the provider order and each block is immediately followed by its own
fully-expanded subtree, recursing into every block that reports having
children except separate addressable containers. -/
def preOrderWalkSpec : List Block → List Block
  | [] => []
  | b :: rest =>
    b :: ((if b.hasChildren && !isSeparateContainer b.btype
            then preOrderWalkSpec b.children else []) ++ preOrderWalkSpec rest)
  termination_by l => sizeOf l
  decreasing_by
  all_goals first
    | (have h := sizeOf_children_lt_cons b rest; omega)
    | (have h := sizeOf_tail_lt b rest; omega)

theorem descend_cond_eq (b : Block) :
    (b.hasChildren && !(b.btype == "child_page") && !(b.btype == "child_database"))
      = (b.hasChildren && !isSeparateContainer b.btype) := by
  simp [isSeparateContainer, Bool.and_assoc]

theorem preOrderWalkSpec_append (l1 l2 : List Block) :
    preOrderWalkSpec (l1 ++ l2) = preOrderWalkSpec l1 ++ preOrderWalkSpec l2 := by
  induction l1 with
  | nil => simp [preOrderWalkSpec]
  | cons b rest ih =>
    rw [List.cons_append, preOrderWalkSpec, preOrderWalkSpec, ih]
    simp [List.append_assoc]

theorem fetch_eq_spec_aux :
    ∀ n, ∀ l : List Block, sizeOf l ≤ n →
      (fetchBatch l = preOrderWalkSpec l ∧ fetchPages l = preOrderWalkSpec l) := by
  intro n
  induction n using Nat.strong_induction_on with
  | _ n ih =>
    intro l hl
    have hA : fetchBatch l = preOrderWalkSpec l := by
      cases l with
      | nil => rw [fetchBatch, preOrderWalkSpec]
      | cons b rest =>
        rw [fetchBatch, preOrderWalkSpec]
        have hch : fetchPages b.children = preOrderWalkSpec b.children := by
          have hlt := sizeOf_children_lt_cons b rest
          rcases Nat.lt_or_ge 0 n with hn | hn
          · exact (ih (n - 1) (by omega) b.children (by omega)).2
          · exfalso
            have := sizeOf_list_pos (b :: rest)
            omega
        have hrest : fetchBatch rest = preOrderWalkSpec rest := by
          have hlt := sizeOf_tail_lt b rest
          rcases Nat.lt_or_ge 0 n with hn | hn
          · exact (ih (n - 1) (by omega) rest (by omega)).1
          · exfalso
            have := sizeOf_list_pos (b :: rest)
            omega
        rw [descend_cond_eq, hch, hrest]
    refine ⟨hA, ?_⟩
    cases l with
    | nil => rw [fetchPages, preOrderWalkSpec]
    | cons b rest =>
      rw [fetchPages]
      have hdrop : fetchPages ((b :: rest).drop 100) = preOrderWalkSpec ((b :: rest).drop 100) := by
        have hlt := sizeOf_drop_lt b rest 100 (by omega)
        rcases Nat.lt_or_ge 0 n with hn | hn
        · exact (ih (n - 1) (by omega) ((b :: rest).drop 100) (by omega)).2
        · exfalso
          have := sizeOf_list_pos (b :: rest)
          omega
      have htake : fetchBatch ((b :: rest).take 100) = preOrderWalkSpec ((b :: rest).take 100) := by
        rcases le_or_lt (b :: rest).length 100 with hlen | hlen
        · rw [List.take_of_length_le hlen]
          exact hA
        · have hszdrop := sizeOf_drop_lt b rest 100 (by omega)
          have hsplit : sizeOf ((b :: rest).take 100) + sizeOf ((b :: rest).drop 100)
              = sizeOf (b :: rest) + 1 := by
            conv_rhs => rw [← List.take_append_drop 100 (b :: rest)]
            generalize (b :: rest).take 100 = u
            generalize (b :: rest).drop 100 = v
            induction u with
            | nil => simp only [List.nil_append, List.nil.sizeOf_spec]; omega
            | cons x xs ihx =>
              simp only [List.cons_append, List.cons.sizeOf_spec] at ihx ⊢
              omega
          have hdz : (b :: rest).drop 100 ≠ [] := by
            intro hz
            have hlen2 := List.length_drop 100 (b :: rest)
            rw [hz] at hlen2
            simp only [List.length_nil] at hlen2
            omega
          have : 0 < sizeOf ((b :: rest).drop 100) := sizeOf_list_pos _
          have h2 : 2 ≤ sizeOf ((b :: rest).drop 100) := by
            cases hv : (b :: rest).drop 100 with
            | nil => exact absurd hv hdz
            | cons y ys =>
              have := Block.sizeOf_pos y
              have := sizeOf_list_pos ys
              simp [hv]
              omega
          have htl : sizeOf ((b :: rest).take 100) < sizeOf (b :: rest) := by omega
          rcases Nat.lt_or_ge 0 n with hn | hn
          · exact (ih (n - 1) (by omega) ((b :: rest).take 100) (by omega)).1
          · exfalso
            have := sizeOf_list_pos (b :: rest)
            omega
      rw [htake, hdrop, ← preOrderWalkSpec_append, List.take_append_drop]

/-- C1. The block tree fetcher returns, for every container, exactly the
depth-first pre-order sequence of descendant blocks described by the spec:
siblings in provider order, each block immediately followed by its own
fully-expanded subtree, descending into every block whose has_children flag is
true except child_page and child_database blocks, which stay leaves. -/
theorem c1_fetch_is_preorder (roots : List Block) :
    fetchPages roots = preOrderWalkSpec roots :=
  (fetch_eq_spec_aux (sizeOf roots) roots (le_refl _)).2

/-! ### Chunked Payload Writer: splitting

Two splitters appear in the source.  chunkEvery models the fixed-size slicing
loops that cut a base64 payload into field-sized and span-sized pieces
(for i in steps of the chunk size, push substring(i, i + size)).
splitTextIntoChunks models the sentence-boundary splitter of the storage
module, which prefers a sentence end inside a 1000 character window before the
hard limit, then a sentence end inside a 2000 character window, then the last
space, trims each emitted chunk, and skips whitespace before the next chunk
starts. -/

/-- Fixed-size slicing into pieces of length n.  The source only calls this
with the positive constants 2000, 1000 and 100000; a zero size would not
terminate in the source, and is mapped to a single piece here. -/
def chunkEvery {α : Type} (n : Nat) : List α → List (List α)
  | [] => []
  | a :: as =>
    if n = 0 then [a :: as]
    else (a :: as).take n :: chunkEvery n ((a :: as).drop n)
  termination_by l => l.length
  decreasing_by
  simp only [List.length_drop, List.length_cons]
  omega

theorem chunkEvery_join {α : Type} (n : Nat) (hn : 1 ≤ n) (l : List α) :
    (chunkEvery n l).flatten = l := by
  have key : ∀ k (l : List α), l.length ≤ k → (chunkEvery n l).flatten = l := by
    intro k
    induction k with
    | zero =>
      intro l hl
      cases l with
      | nil => rw [chunkEvery]; rfl
      | cons a as => simp at hl
    | succ k ih =>
      intro l hl
      cases l with
      | nil => rw [chunkEvery]; rfl
      | cons a as =>
        rw [chunkEvery, if_neg (by omega)]
        rw [List.flatten_cons]
        rw [ih ((a :: as).drop n) (by
          simp only [List.length_drop, List.length_cons]
          simp only [List.length_cons] at hl
          omega)]
        exact List.take_append_drop n (a :: as)
  exact key l.length l (le_refl _)

/-- Whitespace characters the splitter skips between chunks: space, newline
and carriage return, exactly the set tested in the source. -/
def isSkipWs (c : Char) : Bool :=
  c == ' ' || c == '\n' || c == '\r'

/-- Whitespace removed by the JavaScript trim calls, restricted to the
characters that occur in this development. -/
def isTrimWs (c : Char) : Bool :=
  c == ' ' || c == '\n' || c == '\r' || c == '\t'

/-- JavaScript String.trim on a character list. -/
def jsTrim (l : List Char) : List Char :=
  ((l.dropWhile isTrimWs).reverse.dropWhile isTrimWs).reverse

/-- The source test for a sentence ending at index i: the character is a
period, exclamation or question mark, and either it is the last character or
the next character is a space, newline or carriage return. -/
def sentenceEndAt (text : List Char) (i : Nat) : Bool :=
  (text.getD i ' ' == '.' || text.getD i ' ' == '!' || text.getD i ' ' == '?') &&
  (i == text.length - 1 || isSkipWs (text.getD (i + 1) 'x'))

/-- The backward for loop of the source: scan i downward while i stays
strictly above lo, returning one past the first sentence ending found. -/
def findBreakFrom (text : List Char) (lo : Nat) : Nat → Option Nat
  | 0 => none
  | i + 1 =>
    if i + 1 ≤ lo then none
    else if sentenceEndAt text (i + 1) then some (i + 2)
    else findBreakFrom text lo i

/-- JavaScript lastIndexOf of a space with an inclusive start index. -/
def lastSpaceFrom (text : List Char) : Nat → Option Nat
  | 0 => if text.getD 0 'x' == ' ' then some 0 else none
  | i + 1 => if text.getD (i + 1) 'x' == ' ' then some (i + 1) else lastSpaceFrom text i

/-- Chunk end adjustment of the storage module splitter: sentence break in a
1000 character trailing window, else in a 2000 character window, else the last
space before the limit, else the hard limit.  The source guards each found
sentence break with bestSentenceEnd greater than currentPosition; the scan
only visits indices strictly above the window start, which is at least
currentPosition, so that guard is always true and is dropped here. -/
def splitChunkEnd (text : List Char) (cur chunkEnd0 : Nat) : Nat :=
  match findBreakFrom text (max cur (chunkEnd0 - 1000)) (chunkEnd0 - 1) with
  | some e => e
  | none =>
    match findBreakFrom text (max cur (chunkEnd0 - 2000)) (chunkEnd0 - 1) with
    | some e => e
    | none =>
      match lastSpaceFrom text chunkEnd0 with
      | some j => if cur < j then j else chunkEnd0
      | none => chunkEnd0

/-- Position advance after a chunk is cut: skip spaces, newlines and carriage
returns, as the trailing while loop of the source does. -/
def skipWsFrom (text : List Char) (pos : Nat) : Nat :=
  pos + ((text.drop pos).takeWhile isSkipWs).length

/-- The while loop of splitTextIntoChunks.  Each iteration advances the
position by at least one character whenever the maximum length is positive,
as it is at every call site (4000), so a fuel of length text + 1 runs the
loop to completion exactly as the source does. -/
def splitLoop (text : List Char) (maxLen : Nat) : Nat → Nat → List (List Char)
  | 0, _ => []
  | fuel + 1, cur =>
    if cur < text.length then
      let chunkEnd0 := min (cur + maxLen) text.length
      let chunkEnd := if chunkEnd0 < text.length then splitChunkEnd text cur chunkEnd0
                      else chunkEnd0
      let chunk := jsTrim ((text.drop cur).take (chunkEnd - cur))
      let nextPos := skipWsFrom text chunkEnd
      if chunk.isEmpty then splitLoop text maxLen fuel nextPos
      else chunk :: splitLoop text maxLen fuel nextPos
    else []

/-- The sentence-boundary splitter of the storage module: a text not longer
than the limit is returned as a single chunk, otherwise the while loop cuts
trimmed chunks. -/
def splitTextIntoChunks (text : List Char) (maxLen : Nat) : List (List Char) :=
  if text.length ≤ maxLen then [text]
  else splitLoop text maxLen (text.length + 1) 0

/-- C2 counterexample.  The claim states that concatenating the pieces of the
sentence-boundary splitter reproduces the input exactly above the threshold as
well; on the five character input ab-space-cd with limit 4 the splitter cuts
at the space, trims it away, and the concatenation abcd loses the space. -/
theorem c2_counterexample :
    ¬ ((splitTextIntoChunks ['a', 'b', ' ', 'c', 'd'] 4).flatten
        = ['a', 'b', ' ', 'c', 'd']) := by
  decide

/-- C2 amended.  Concatenating the fixed-size slices of a base64 payload
reproduces the input exactly for every input and every positive piece size,
both below and above any threshold; the sentence-boundary splitter returns
the input unchanged as its single chunk when the input does not exceed the
configured maximum length, but above that limit it trims whitespace at chunk
boundaries, so exact concatenation is only guaranteed below the threshold. -/
theorem c2_amended (text : List Char) (maxLen n : Nat) :
    (text.length ≤ maxLen → splitTextIntoChunks text maxLen = [text]) ∧
    (1 ≤ n → (chunkEvery n text).flatten = text) := by
  constructor
  · intro h
    simp [splitTextIntoChunks, h]
  · intro hn
    exact chunkEvery_join n hn text

/-- C2 amended, witnessed at concrete inputs on both sides of the threshold. -/
theorem c2_amended_witness :
    (splitTextIntoChunks ['h', 'i'] 4000 = [['h', 'i']]) ∧
    ((chunkEvery 2 ['a', 'b', ' ', 'c', 'd']).flatten = ['a', 'b', ' ', 'c', 'd']) :=
  ⟨(c2_amended ['h', 'i'] 4000 2).1 (by decide),
   (c2_amended ['a', 'b', ' ', 'c', 'd'] 4000 2).2 (by decide)⟩

/-! ### Mutating Transform: the checkbox and quote converters

convertCheckboxesToBullets and convertQuotesToText share one shape: walk the
top-level blocks of a page; on a block of the source type, append a freshly
built replacement block directly after it and delete the original; on any
other block that has children, recurse with processChildBlocks, which applies
the same conversion at every depth.  The dry-run flag skips every write.  The
model walks the sibling lists the pagination loops concatenate, threads a
fresh-identifier supply for the blocks the provider creates on append, and
records every issued write operation. -/

/-- Write operations issued to the provider: append a new block after an
existing one inside a parent, or delete a block by identifier. -/
inductive Op : Type where
  | appendAfter : Nat → Nat → Block → Op
  | deleteBlock : Nat → Op

/-- Replacement built by the checkbox converter: a bulleted_list_item carrying
the original rich_text and the original color with the JavaScript
color-or-default fallback, no checked state and no children.  The identifier
is the fresh one the provider assigns on append. -/
def mkBulletFrom (b : Block) (newId : Nat) : Block :=
  .mk newId "bulleted_list_item" false b.richText
    (if b.color = "" then "default" else b.color) none []

/-- The rich-text span holding one double quote character that the quote
converter places around the original spans. -/
def quoteSpan : RichText :=
  { rtype := "text", plain := "\"", content := "\"", linkUrl := "", href := "" }

/-- Replacement built by the quote converter: a paragraph whose spans are the
original spans wrapped in quote spans, same color fallback, no checked state
and no children. -/
def mkQuotedFrom (b : Block) (newId : Nat) : Block :=
  .mk newId "paragraph" false (quoteSpan :: (b.richText ++ [quoteSpan]))
    (if b.color = "" then "default" else b.color) none []

/-- Result of processChildBlocks: the rewritten subtree, the next fresh
identifier, and the writes issued.  The nested walk counts nothing. -/
structure ChildRun where
  tree : List Block
  next : Nat
  ops : List Op

/-- Result of the top-level page walk: the rewritten block list, the number of
source-type blocks found at the top level (the only counter the source
maintains; in a run where every conversion succeeds it equals the number of
conversions reported), the next fresh identifier, and the writes issued. -/
structure TopRun where
  tree : List Block
  count : Nat
  next : Nat
  ops : List Op

/-- processChildBlocks.  On a source-type block the converter appends the
replacement after it and deletes it; the separate has_children check that
follows then targets the just-deleted identifier, the provider rejects the
listing, the error is caught, and the subtree is skipped, which the model
reflects by not recursing after a live conversion.  In dry-run mode nothing
is deleted, so the same check does recurse into the children of a source-type
block.  Non-source blocks with children are walked recursively. -/
def runChild (src : String) (mkRepl : Block → Nat → Block) (dry : Bool)
    (parentId : Nat) (next : Nat) : List Block → ChildRun
  | [] => ⟨[], next, []⟩
  | b :: rest =>
    if b.btype = src then
      if dry then
        if b.hasChildren then
          let c := runChild src mkRepl dry b.id next b.children
          let r := runChild src mkRepl dry parentId c.next rest
          ⟨b.withChildren c.tree :: r.tree, r.next, c.ops ++ r.ops⟩
        else
          let r := runChild src mkRepl dry parentId next rest
          ⟨b :: r.tree, r.next, r.ops⟩
      else
        let nb := mkRepl b next
        let r := runChild src mkRepl dry parentId (next + 1) rest
        ⟨nb :: r.tree, r.next,
          .appendAfter parentId b.id nb :: .deleteBlock b.id :: r.ops⟩
    else if b.hasChildren then
      let c := runChild src mkRepl dry b.id next b.children
      let r := runChild src mkRepl dry parentId c.next rest
      ⟨b.withChildren c.tree :: r.tree, r.next, c.ops ++ r.ops⟩
    else
      let r := runChild src mkRepl dry parentId next rest
      ⟨b :: r.tree, r.next, r.ops⟩
  termination_by l => sizeOf l
  decreasing_by
  all_goals first
    | (have h := sizeOf_children_lt_cons b rest; omega)
    | (have h := sizeOf_tail_lt b rest; omega)

/-- The top-level walk of one page.  A source-type block is counted and, in a
live run, converted; otherwise a block with children is handed to
processChildBlocks.  The top-level walk does not descend into a source-type
block even in dry-run mode, because there the children branch is the else of
the type test. -/
def runTop (src : String) (mkRepl : Block → Nat → Block) (dry : Bool)
    (pageId : Nat) (next : Nat) : List Block → TopRun
  | [] => ⟨[], 0, next, []⟩
  | b :: rest =>
    if b.btype = src then
      if dry then
        let r := runTop src mkRepl dry pageId next rest
        ⟨b :: r.tree, r.count + 1, r.next, r.ops⟩
      else
        let nb := mkRepl b next
        let r := runTop src mkRepl dry pageId (next + 1) rest
        ⟨nb :: r.tree, r.count + 1, r.next,
          .appendAfter pageId b.id nb :: .deleteBlock b.id :: r.ops⟩
    else if b.hasChildren then
      let c := runChild src mkRepl dry b.id next b.children
      let r := runTop src mkRepl dry pageId c.next rest
      ⟨b.withChildren c.tree :: r.tree, r.count, r.next, c.ops ++ r.ops⟩
    else
      let r := runTop src mkRepl dry pageId next rest
      ⟨b :: r.tree, r.count, r.next, r.ops⟩

@[simp] theorem Block.btype_withChildren (b : Block) (cs : List Block) :
    (b.withChildren cs).btype = b.btype := by
  cases b with
  | mk i t hc rt c ch cs0 => rfl

@[simp] theorem Block.hasChildren_withChildren (b : Block) (cs : List Block) :
    (b.withChildren cs).hasChildren = b.hasChildren := by
  cases b with
  | mk i t hc rt c ch cs0 => rfl

@[simp] theorem Block.children_withChildren (b : Block) (cs : List Block) :
    (b.withChildren cs).children = cs := by
  cases b with
  | mk i t hc rt c ch cs0 => rfl

/-- No block of the source type remains at any position the converters walk:
every top-level block, and recursively the children of every block whose
has_children flag is set. -/
def noSrcWalk (src : String) : List Block → Bool
  | [] => true
  | b :: rest =>
    !(b.btype == src) && (!b.hasChildren || noSrcWalk src b.children)
      && noSrcWalk src rest
  termination_by l => sizeOf l
  decreasing_by
  all_goals first
    | (have h := sizeOf_children_lt_cons b rest; omega)
    | (have h := sizeOf_tail_lt b rest; omega)

theorem runChild_dry (src : String) (mkRepl : Block → Nat → Block) :
    ∀ l : List Block, ∀ parentId next,
      runChild src mkRepl true parentId next l = ⟨l, next, []⟩ := by
  apply blockList_ind
    (P := fun l => ∀ parentId next, runChild src mkRepl true parentId next l = ⟨l, next, []⟩)
  · intro parentId next
    rw [runChild]
  · intro b rest ihc ihr parentId next
    rw [runChild]
    by_cases hsrc : b.btype = src
    · by_cases hch : b.hasChildren
      · simp [hsrc, hch, ihc, ihr]
      · simp [hsrc, hch, ihr]
    · by_cases hch : b.hasChildren
      · simp [hsrc, hch, ihc, ihr]
      · simp [hsrc, hch, ihr]

theorem runChild_nosrc (src : String) (mkRepl : Block → Nat → Block) (dry : Bool) :
    ∀ l : List Block, noSrcWalk src l = true →
      ∀ parentId next, runChild src mkRepl dry parentId next l = ⟨l, next, []⟩ := by
  apply blockList_ind
    (P := fun l => noSrcWalk src l = true →
      ∀ parentId next, runChild src mkRepl dry parentId next l = ⟨l, next, []⟩)
  · intro _ parentId next
    rw [runChild]
  · intro b rest ihc ihr hno parentId next
    rw [noSrcWalk] at hno
    simp only [Bool.and_eq_true, Bool.or_eq_true, Bool.not_eq_true'] at hno
    obtain ⟨⟨hb, hcond⟩, hrest⟩ := hno
    have hsrc : ¬ b.btype = src := by
      intro h
      rw [h] at hb
      simp at hb
    rw [runChild]
    by_cases hch : b.hasChildren
    · have hchno : noSrcWalk src b.children = true := by
        rcases hcond with h | h
        · rw [hch] at h; simp at h
        · exact h
      simp [hsrc, hch, ihc hchno, ihr hrest]
    · simp [hsrc, hch, ihr hrest]

theorem runChild_live_clean (src : String) (mkRepl : Block → Nat → Block)
    (hmk : ∀ b n, ((mkRepl b n).btype == src) = false ∧ (mkRepl b n).hasChildren = false) :
    ∀ l : List Block, ∀ parentId next,
      noSrcWalk src (runChild src mkRepl false parentId next l).tree = true := by
  apply blockList_ind
    (P := fun l => ∀ parentId next,
      noSrcWalk src (runChild src mkRepl false parentId next l).tree = true)
  · intro parentId next
    rw [runChild]
    rw [noSrcWalk]
  · intro b rest ihc ihr parentId next
    rw [runChild]
    by_cases hsrc : b.btype = src
    · have h1 := (hmk b next).1
      have h2 := (hmk b next).2
      simp [hsrc, noSrcWalk, h1, h2, ihr]
    · by_cases hch : b.hasChildren
      · simp [hsrc, hch, noSrcWalk, ihc, ihr]
      · simp [hsrc, hch, noSrcWalk, ihr]

theorem runTop_dry (src : String) (mkRepl : Block → Nat → Block) :
    ∀ l : List Block, ∀ pageId next,
      (runTop src mkRepl true pageId next l).tree = l ∧
      (runTop src mkRepl true pageId next l).next = next ∧
      (runTop src mkRepl true pageId next l).ops = [] := by
  intro l
  induction l with
  | nil =>
    intro pageId next
    rw [runTop]
    exact ⟨rfl, rfl, rfl⟩
  | cons b rest ih =>
    intro pageId next
    rw [runTop]
    by_cases hsrc : b.btype = src
    · have := ih pageId next
      simp [hsrc, this.1, this.2.1, this.2.2]
    · by_cases hch : b.hasChildren
      · have hc := runChild_dry src mkRepl b.children b.id next
        have := ih pageId next
        simp [hsrc, hch, hc, this.1, this.2.1, this.2.2]
      · have := ih pageId next
        simp [hsrc, hch, this.1, this.2.1, this.2.2]

theorem runTop_count_mode (src : String) (mkRepl : Block → Nat → Block) :
    ∀ l : List Block, ∀ pageId pageId2 n m,
      (runTop src mkRepl true pageId n l).count
        = (runTop src mkRepl false pageId2 m l).count := by
  intro l
  induction l with
  | nil =>
    intro pageId pageId2 n m
    rw [runTop, runTop]
  | cons b rest ih =>
    intro pageId pageId2 n m
    rw [runTop]
    conv_rhs => rw [runTop]
    by_cases hsrc : b.btype = src
    · simp only [hsrc, if_pos rfl, if_true, if_false]
      simp
      exact ih pageId pageId2 n (m + 1)
    · by_cases hch : b.hasChildren
      · simp [hsrc, hch]
        exact ih pageId pageId2 _ _
      · simp [hsrc, hch]
        exact ih pageId pageId2 n m

theorem runTop_nosrc (src : String) (mkRepl : Block → Nat → Block) (dry : Bool) :
    ∀ l : List Block, noSrcWalk src l = true →
      ∀ pageId next, runTop src mkRepl dry pageId next l = ⟨l, 0, next, []⟩ := by
  intro l
  induction l with
  | nil =>
    intro _ pageId next
    rw [runTop]
  | cons b rest ih =>
    intro hno pageId next
    rw [noSrcWalk] at hno
    simp only [Bool.and_eq_true, Bool.or_eq_true, Bool.not_eq_true'] at hno
    obtain ⟨⟨hb, hcond⟩, hrest⟩ := hno
    have hsrc : ¬ b.btype = src := by
      intro h
      rw [h] at hb
      simp at hb
    rw [runTop]
    by_cases hch : b.hasChildren
    · have hchno : noSrcWalk src b.children = true := by
        rcases hcond with h | h
        · rw [hch] at h; simp at h
        · exact h
      simp [hsrc, hch, runChild_nosrc src mkRepl dry b.children hchno, ih hrest]
    · simp [hsrc, hch, ih hrest]

theorem runTop_live_clean (src : String) (mkRepl : Block → Nat → Block)
    (hmk : ∀ b n, ((mkRepl b n).btype == src) = false ∧ (mkRepl b n).hasChildren = false) :
    ∀ l : List Block, ∀ pageId next,
      noSrcWalk src (runTop src mkRepl false pageId next l).tree = true := by
  intro l
  induction l with
  | nil =>
    intro pageId next
    rw [runTop]
    rw [noSrcWalk]
  | cons b rest ih =>
    intro pageId next
    rw [runTop]
    by_cases hsrc : b.btype = src
    · have h1 := (hmk b next).1
      have h2 := (hmk b next).2
      simp [hsrc, noSrcWalk, h1, h2, ih]
    · by_cases hch : b.hasChildren
      · simp [hsrc, hch, noSrcWalk, runChild_live_clean src mkRepl hmk, ih]
      · simp [hsrc, hch, noSrcWalk, ih]

theorem mkBulletFrom_clean :
    ∀ (b : Block) (n : Nat),
      ((mkBulletFrom b n).btype == "to_do") = false ∧
      (mkBulletFrom b n).hasChildren = false := by
  intro b n
  constructor
  · simp [mkBulletFrom]
  · simp [mkBulletFrom]

theorem mkQuotedFrom_clean :
    ∀ (b : Block) (n : Nat),
      ((mkQuotedFrom b n).btype == "quote") = false ∧
      (mkQuotedFrom b n).hasChildren = false := by
  intro b n
  constructor
  · simp [mkQuotedFrom]
  · simp [mkQuotedFrom]

/-- C3.  After a live run of the checkbox converter in which every conversion
succeeded, no block of the source type to_do remains anywhere in the walked
tree, and a second live run on the result performs zero conversions: it finds
a zero count, issues no write operations, and leaves the tree unchanged.  The
same holds for the quote converter with source type quote. -/
theorem c3_converters_idempotent (bs : List Block) (pageId pageId2 n m : Nat) :
    (noSrcWalk "to_do" (runTop "to_do" mkBulletFrom false pageId n bs).tree = true ∧
     runTop "to_do" mkBulletFrom false pageId2 m
        (runTop "to_do" mkBulletFrom false pageId n bs).tree
      = ⟨(runTop "to_do" mkBulletFrom false pageId n bs).tree, 0, m, []⟩) ∧
    (noSrcWalk "quote" (runTop "quote" mkQuotedFrom false pageId n bs).tree = true ∧
     runTop "quote" mkQuotedFrom false pageId2 m
        (runTop "quote" mkQuotedFrom false pageId n bs).tree
      = ⟨(runTop "quote" mkQuotedFrom false pageId n bs).tree, 0, m, []⟩) := by
  have hb := runTop_live_clean "to_do" mkBulletFrom mkBulletFrom_clean bs pageId n
  have hq := runTop_live_clean "quote" mkQuotedFrom mkQuotedFrom_clean bs pageId n
  exact ⟨⟨hb, runTop_nosrc "to_do" mkBulletFrom false _ hb pageId2 m⟩,
         ⟨hq, runTop_nosrc "quote" mkQuotedFrom false _ hq pageId2 m⟩⟩

/-- C6.  In dry-run mode both converters perform the traversal and the match
count but issue no write operations and leave the tree untouched, and the
count a dry run reports equals the count of conversions a live run performs on
the same unmodified input. -/
theorem c6_dry_run_parity (bs : List Block) (pageId pageId2 n m : Nat) :
    ((runTop "to_do" mkBulletFrom true pageId n bs).tree = bs ∧
     (runTop "to_do" mkBulletFrom true pageId n bs).ops = [] ∧
     (runTop "to_do" mkBulletFrom true pageId n bs).count
       = (runTop "to_do" mkBulletFrom false pageId2 m bs).count) ∧
    ((runTop "quote" mkQuotedFrom true pageId n bs).tree = bs ∧
     (runTop "quote" mkQuotedFrom true pageId n bs).ops = [] ∧
     (runTop "quote" mkQuotedFrom true pageId n bs).count
       = (runTop "quote" mkQuotedFrom false pageId2 m bs).count) := by
  have hb := runTop_dry "to_do" mkBulletFrom bs pageId n
  have hq := runTop_dry "quote" mkQuotedFrom bs pageId n
  exact ⟨⟨hb.1, hb.2.2, runTop_count_mode "to_do" mkBulletFrom bs pageId pageId2 n m⟩,
         ⟨hq.1, hq.2.2, runTop_count_mode "quote" mkQuotedFrom bs pageId pageId2 n m⟩⟩

/-- C9.  Converting a top-level to_do block issues exactly the append and
delete for that block, whatever its children are: the walk never recurses into
the children of a matching to_do block, the replacement carries no checked
state and no children (so the original nested blocks are deleted with the
original and never copied), and only the span list survives into the
replacement. -/
theorem c9_conversion_drops_children (b : Block) (pageId next : Nat)
    (hb : b.btype = "to_do") :
    runTop "to_do" mkBulletFrom false pageId next [b]
      = ⟨[mkBulletFrom b next], 1, next + 1,
         [.appendAfter pageId b.id (mkBulletFrom b next), .deleteBlock b.id]⟩ ∧
    (mkBulletFrom b next).checked = none ∧
    (mkBulletFrom b next).children = [] ∧
    (mkBulletFrom b next).richText = b.richText := by
  refine ⟨?_, rfl, rfl, rfl⟩
  simp [runTop, hb]

/-- C9 witnessed on a to_do block that itself contains a nested to_do child:
the run still issues only the two writes for the outer block and the nested
child is dropped, not converted. -/
theorem c9_witness :
    runTop "to_do" mkBulletFrom false 0 100
        [Block.mk 1 "to_do" true [⟨"text", "task", "task", "", ""⟩] "default" (some true)
          [Block.mk 2 "to_do" false [⟨"text", "sub", "sub", "", ""⟩] "default" (some false) []]]
      = ⟨[mkBulletFrom (Block.mk 1 "to_do" true [⟨"text", "task", "task", "", ""⟩] "default"
            (some true)
            [Block.mk 2 "to_do" false [⟨"text", "sub", "sub", "", ""⟩] "default" (some false) []])
            100],
         1, 100 + 1,
         [.appendAfter 0 1 (mkBulletFrom (Block.mk 1 "to_do" true
            [⟨"text", "task", "task", "", ""⟩] "default" (some true)
            [Block.mk 2 "to_do" false [⟨"text", "sub", "sub", "", ""⟩] "default" (some false) []])
            100),
          .deleteBlock 1]⟩ ∧
    (mkBulletFrom (Block.mk 1 "to_do" true [⟨"text", "task", "task", "", ""⟩] "default"
        (some true)
        [Block.mk 2 "to_do" false [⟨"text", "sub", "sub", "", ""⟩] "default" (some false) []])
        100).checked = none ∧
    (mkBulletFrom (Block.mk 1 "to_do" true [⟨"text", "task", "task", "", ""⟩] "default"
        (some true)
        [Block.mk 2 "to_do" false [⟨"text", "sub", "sub", "", ""⟩] "default" (some false) []])
        100).children = [] ∧
    (mkBulletFrom (Block.mk 1 "to_do" true [⟨"text", "task", "task", "", ""⟩] "default"
        (some true)
        [Block.mk 2 "to_do" false [⟨"text", "sub", "sub", "", ""⟩] "default" (some false) []])
        100).richText
      = (Block.mk 1 "to_do" true [⟨"text", "task", "task", "", ""⟩] "default" (some true)
          [Block.mk 2 "to_do" false [⟨"text", "sub", "sub", "", ""⟩] "default" (some false) []]
          ).richText :=
  c9_conversion_drops_children
    (Block.mk 1 "to_do" true [⟨"text", "task", "task", "", ""⟩] "default" (some true)
      [Block.mk 2 "to_do" false [⟨"text", "sub", "sub", "", ""⟩] "default" (some false) []])
    0 100 rfl

/-! ### Effect of the two provider calls of one conversion

The converter performs one conversion with blocks.children.append carrying an
after position, followed by blocks.delete on the original identifier.  The two
definitions below model the effect of those calls on the sibling list that
contains the original block. -/

/-- Provider append with an after position: the new block is inserted directly
after the first sibling carrying the given identifier.  When no sibling
matches, the provider rejects the call with a validation error and writes
nothing, modelled as the unchanged list. -/
def appendAfterOp (siblings : List Block) (afterId : Nat) (nb : Block) : List Block :=
  match siblings with
  | [] => []
  | b :: rest =>
    if b.id = afterId then b :: nb :: rest
    else b :: appendAfterOp rest afterId nb

/-- Provider delete by identifier: the first sibling carrying the identifier
is removed; a miss writes nothing. -/
def deleteOp (siblings : List Block) (bid : Nat) : List Block :=
  match siblings with
  | [] => []
  | b :: rest =>
    if b.id = bid then rest
    else b :: deleteOp rest bid

/-- Identifiers of all blocks of a forest, at every depth. -/
def allIds : List Block → List Nat
  | [] => []
  | b :: rest => b.id :: (allIds b.children ++ allIds rest)
  termination_by l => sizeOf l
  decreasing_by
  all_goals first
    | (have h := sizeOf_children_lt_cons b rest; omega)
    | (have h := sizeOf_tail_lt b rest; omega)

theorem allIds_append (l1 l2 : List Block) :
    allIds (l1 ++ l2) = allIds l1 ++ allIds l2 := by
  induction l1 with
  | nil => simp [allIds]
  | cons b rest ih =>
    rw [List.cons_append, allIds, allIds, ih]
    simp [List.append_assoc]

theorem appendAfterOp_skip (l1 rest : List Block) (x : Nat) (nb : Block)
    (h : x ∉ allIds l1) :
    appendAfterOp (l1 ++ rest) x nb = l1 ++ appendAfterOp rest x nb := by
  induction l1 with
  | nil => simp
  | cons b l1' ih =>
    rw [allIds] at h
    simp only [List.mem_cons, List.mem_append, not_or] at h
    rw [List.cons_append, appendAfterOp]
    rw [if_neg (by intro he; exact h.1 he.symm)]
    rw [ih (by
      intro hm
      exact h.2.2 hm)]
    rfl

theorem deleteOp_skip (l1 rest : List Block) (x : Nat)
    (h : x ∉ allIds l1) :
    deleteOp (l1 ++ rest) x = l1 ++ deleteOp rest x := by
  induction l1 with
  | nil => simp
  | cons b l1' ih =>
    rw [allIds] at h
    simp only [List.mem_cons, List.mem_append, not_or] at h
    rw [List.cons_append, deleteOp]
    rw [if_neg (by intro he; exact h.1 he.symm)]
    rw [ih (by
      intro hm
      exact h.2.2 hm)]
    rfl

/-- C4.  Converting a to_do block whose identifier occurs nowhere else in its
sibling forest: the append inserts the replacement bulleted_list_item directly
after the original position and the delete then removes the original, so the
replacement ends up at exactly the original position among its siblings; the
replacement carries the original span list unchanged and the original color;
and the original identifier resolves nowhere in the resulting forest. -/
theorem c4_replacement_preserves_spans (l1 l2 : List Block) (b : Block) (newId : Nat)
    (hb : b.btype = "to_do")
    (h1 : b.id ∉ allIds l1) (h2 : b.id ∉ allIds l2)
    (hfresh : newId ≠ b.id) (hcolor : b.color ≠ "") :
    deleteOp (appendAfterOp (l1 ++ b :: l2) b.id (mkBulletFrom b newId)) b.id
      = l1 ++ mkBulletFrom b newId :: l2 ∧
    (mkBulletFrom b newId).richText = b.richText ∧
    (mkBulletFrom b newId).color = b.color ∧
    (mkBulletFrom b newId).btype = "bulleted_list_item" ∧
    b.id ∉ allIds (l1 ++ mkBulletFrom b newId :: l2) := by
  refine ⟨?_, rfl, ?_, rfl, ?_⟩
  · rw [appendAfterOp_skip l1 (b :: l2) b.id (mkBulletFrom b newId) h1]
    rw [appendAfterOp, if_pos rfl]
    rw [deleteOp_skip l1 (b :: mkBulletFrom b newId :: l2) b.id h1]
    rw [deleteOp, if_pos rfl]
  · simp [mkBulletFrom, hcolor]
  · rw [allIds_append]
    simp only [List.mem_append, not_or]
    refine ⟨h1, ?_⟩
    rw [allIds]
    simp only [List.mem_cons, List.mem_append, not_or]
    refine ⟨?_, ?_, h2⟩
    · simp [mkBulletFrom]
      intro he
      exact hfresh he.symm
    · simp [mkBulletFrom, allIds]

/-- C4 witnessed on the Buy milk scenario: a to_do block with span list
Buy milk is replaced, in place, by a bulleted_list_item whose span list is
exactly Buy milk, and the original identifier no longer resolves. -/
theorem c4_witness :
    deleteOp (appendAfterOp ([] ++ Block.mk 5 "to_do" false
          [⟨"text", "Buy milk", "Buy milk", "", ""⟩] "default" (some false) [] :: [])
        (Block.mk 5 "to_do" false [⟨"text", "Buy milk", "Buy milk", "", ""⟩] "default"
          (some false) []).id
        (mkBulletFrom (Block.mk 5 "to_do" false [⟨"text", "Buy milk", "Buy milk", "", ""⟩]
          "default" (some false) []) 6))
      (Block.mk 5 "to_do" false [⟨"text", "Buy milk", "Buy milk", "", ""⟩] "default"
        (some false) []).id
      = [] ++ mkBulletFrom (Block.mk 5 "to_do" false
          [⟨"text", "Buy milk", "Buy milk", "", ""⟩] "default" (some false) []) 6 :: [] ∧
    (mkBulletFrom (Block.mk 5 "to_do" false [⟨"text", "Buy milk", "Buy milk", "", ""⟩]
        "default" (some false) []) 6).richText
      = [⟨"text", "Buy milk", "Buy milk", "", ""⟩] ∧
    (mkBulletFrom (Block.mk 5 "to_do" false [⟨"text", "Buy milk", "Buy milk", "", ""⟩]
        "default" (some false) []) 6).color = "default" ∧
    (mkBulletFrom (Block.mk 5 "to_do" false [⟨"text", "Buy milk", "Buy milk", "", ""⟩]
        "default" (some false) []) 6).btype = "bulleted_list_item" ∧
    (Block.mk 5 "to_do" false [⟨"text", "Buy milk", "Buy milk", "", ""⟩] "default"
        (some false) []).id
      ∉ allIds ([] ++ mkBulletFrom (Block.mk 5 "to_do" false
          [⟨"text", "Buy milk", "Buy milk", "", ""⟩] "default" (some false) []) 6 :: []) :=
  c4_replacement_preserves_spans [] []
    (Block.mk 5 "to_do" false [⟨"text", "Buy milk", "Buy milk", "", ""⟩] "default"
      (some false) [])
    6 rfl (by simp [allIds]) (by simp [allIds]) (by decide) (by decide)

/-! ### Text substitution (searchAndReplaceInRichText)

The source builds a global regular expression from the escaped literal search
string, so matching is exact, case-sensitive substring matching with no word
boundary awareness; replaceAllFuel implements that global replacement
directly, scanning left to right and replacing each non-overlapping
occurrence.  The source does not escape the replacement string, so a
replacement containing JavaScript dollar patterns would be interpreted by the
regular expression engine; the claims never use such replacements and the
model treats the replacement as literal text.  A JavaScript global replace of
an empty search string inserts the replacement between all characters; the
claims restrict to non-empty search strings and the model leaves the text
unchanged in that case.  Every step consumes at least one character, so a
fuel of length plus one runs the scan to completion. -/

def replaceAllFuel (search repl : List Char) : Nat → List Char → List Char
  | 0, l => l
  | fuel + 1, l =>
    if search ≠ [] ∧ search.isPrefixOf l then
      repl ++ replaceAllFuel search repl fuel (l.drop search.length)
    else
      match l with
      | [] => []
      | c :: rest => c :: replaceAllFuel search repl fuel rest

def replaceAllL (search repl l : List Char) : List Char :=
  replaceAllFuel search repl (l.length + 1) l

/-- Global, case-sensitive, literal substring replacement on strings, the
effect of content.replace(new RegExp(escapeRegExp(searchText), g),
replaceText) in the source. -/
def strReplaceAll (search repl t : String) : String :=
  String.mk (replaceAllL search.toList repl.toList t.toList)

theorem replaceAllFuel_nil (s r : List Char) (fuel : Nat) :
    replaceAllFuel s r fuel [] = [] := by
  cases fuel with
  | zero => rfl
  | succ f =>
    rw [replaceAllFuel]
    split
    · rename_i h
      exfalso
      rcases h with ⟨hne, hpre⟩
      cases s with
      | nil => exact hne rfl
      | cons c cs => simp [List.isPrefixOf] at hpre
    · rfl

theorem strReplaceAll_empty (s r : String) : strReplaceAll s r "" = "" := by
  unfold strReplaceAll replaceAllL
  rw [show ("" : String).toList = [] from rfl]
  rw [replaceAllFuel_nil]

/-- Per-span update of the source: replace in text.content when the span is a
text span with non-empty content, then in text.link.url when present, then in
the flat href when present; JavaScript truthiness of a string field is the
non-empty test.  The plain_text field is never touched. -/
def updateItem (search repl : String) (item : RichText) : RichText :=
  let i1 := if item.rtype = "text" ∧ item.content ≠ ""
            then { item with content := strReplaceAll search repl item.content }
            else item
  let i2 := if item.rtype = "text" ∧ item.linkUrl ≠ ""
            then { i1 with linkUrl := strReplaceAll search repl item.linkUrl }
            else i1
  if item.href ≠ ""
  then { i2 with href := strReplaceAll search repl item.href }
  else i2

/-- The modified flag the source accumulates while mapping over the spans:
true when any of the three replacements changed its field. -/
def itemModified (search repl : String) (item : RichText) : Bool :=
  (decide (item.rtype = "text") && decide (item.content ≠ "")
    && decide (strReplaceAll search repl item.content ≠ item.content)) ||
  (decide (item.rtype = "text") && decide (item.linkUrl ≠ "")
    && decide (strReplaceAll search repl item.linkUrl ≠ item.linkUrl)) ||
  (decide (item.href ≠ "") && decide (strReplaceAll search repl item.href ≠ item.href))

/-- searchAndReplaceInRichText of the source: map the per-span update over the
span array and report whether any span changed. -/
def searchAndReplaceInRichText (search repl : String) (arr : List RichText) :
    Bool × List RichText :=
  (arr.any (itemModified search repl), arr.map (updateItem search repl))

/-- The span used when an index is out of range; it carries no text at all. -/
def rtDefault : RichText := ⟨"", "", "", "", ""⟩

theorem updateItem_fields (s r : String) (x : RichText) :
    updateItem s r x =
      { rtype := x.rtype, plain := x.plain,
        content := if x.rtype = "text" ∧ x.content ≠ ""
                   then strReplaceAll s r x.content else x.content,
        linkUrl := if x.rtype = "text" ∧ x.linkUrl ≠ ""
                   then strReplaceAll s r x.linkUrl else x.linkUrl,
        href := if x.href ≠ "" then strReplaceAll s r x.href else x.href } := by
  obtain ⟨a, p, c, lu, h⟩ := x
  by_cases ht : a = "text" <;>
  by_cases hc : c = "" <;>
  by_cases hl : lu = "" <;>
  by_cases hh : h = "" <;>
    simp [updateItem, ht, hc, hl, hh]

theorem updateItem_default (s r : String) : updateItem s r rtDefault = rtDefault := by
  rw [updateItem_fields]
  simp [rtDefault]

theorem getD_map_updateItem (s r : String) :
    ∀ (l : List RichText) (i : Nat),
      (l.map (updateItem s r)).getD i rtDefault = updateItem s r (l.getD i rtDefault) := by
  intro l
  induction l with
  | nil =>
    intro i
    simp [updateItem_default]
  | cons a as ih =>
    intro i
    cases i with
    | zero => simp
    | succ i =>
      simp only [List.map_cons, List.getD_cons_succ]
      exact ih i

theorem updateItem_content (s r : String) (x : RichText)
    (hx : x.rtype = "text") :
    (updateItem s r x).content = strReplaceAll s r x.content := by
  rw [updateItem_fields]
  by_cases hc : x.content = ""
  · simp [hx, hc, strReplaceAll_empty]
  · simp [hx, hc]

theorem updateItem_linkUrl (s r : String) (x : RichText)
    (hx : x.rtype = "text") :
    (updateItem s r x).linkUrl = strReplaceAll s r x.linkUrl := by
  rw [updateItem_fields]
  by_cases hl : x.linkUrl = ""
  · simp [hx, hl, strReplaceAll_empty]
  · simp [hx, hl]

theorem updateItem_href (s r : String) (x : RichText) :
    (updateItem s r x).href = strReplaceAll s r x.href := by
  rw [updateItem_fields]
  by_cases hh : x.href = ""
  · simp [hh, strReplaceAll_empty]
  · simp [hh]

theorem updateItem_rtype (s r : String) (x : RichText) :
    (updateItem s r x).rtype = x.rtype := by
  rw [updateItem_fields]

theorem updateItem_plain (s r : String) (x : RichText) :
    (updateItem s r x).plain = x.plain := by
  rw [updateItem_fields]

/-- C5.  For every span array and every non-empty search string, the
substitution transform keeps the number and order of spans (position i of the
output corresponds to position i of the input), applies the global,
case-sensitive, exact substring replacement to the literal content and the
link url of every text span and to the href field of every span, and touches
nothing else; in particular the span text foo is foofoo with search foo and
replacement bar becomes bar is barbar, while capitalized variants are left
alone. -/
theorem c5_replace_all_fields (search repl : String) (arr : List RichText)
    (hs : search ≠ "") :
    ((searchAndReplaceInRichText search repl arr).2.length = arr.length ∧
     ∀ i : Nat,
       ((arr.getD i rtDefault).rtype = "text" →
          ((searchAndReplaceInRichText search repl arr).2.getD i rtDefault).content
            = strReplaceAll search repl (arr.getD i rtDefault).content ∧
          ((searchAndReplaceInRichText search repl arr).2.getD i rtDefault).linkUrl
            = strReplaceAll search repl (arr.getD i rtDefault).linkUrl) ∧
       ((searchAndReplaceInRichText search repl arr).2.getD i rtDefault).href
         = strReplaceAll search repl (arr.getD i rtDefault).href ∧
       ((searchAndReplaceInRichText search repl arr).2.getD i rtDefault).rtype
         = (arr.getD i rtDefault).rtype ∧
       ((searchAndReplaceInRichText search repl arr).2.getD i rtDefault).plain
         = (arr.getD i rtDefault).plain) ∧
    updateItem "foo" "bar" ⟨"text", "foo is foofoo", "foo is foofoo", "", ""⟩
      = ⟨"text", "foo is foofoo", "bar is barbar", "", ""⟩ ∧
    updateItem "foo" "bar" ⟨"text", "Foo is FOO", "Foo is FOO", "", ""⟩
      = ⟨"text", "Foo is FOO", "Foo is FOO", "", ""⟩ := by
  refine ⟨⟨by simp [searchAndReplaceInRichText], ?_⟩, by decide, by decide⟩
  intro i
  simp only [searchAndReplaceInRichText]
  rw [getD_map_updateItem search repl arr i]
  refine ⟨fun hx => ⟨updateItem_content search repl _ hx,
                     updateItem_linkUrl search repl _ hx⟩,
          updateItem_href search repl _,
          updateItem_rtype search repl _,
          updateItem_plain search repl _⟩

/-- C5 witnessed on the foo is foofoo scenario with one paragraph span. -/
theorem c5_witness :
    ((searchAndReplaceInRichText "foo" "bar"
        [⟨"text", "foo is foofoo", "foo is foofoo", "", ""⟩]).2.length
      = ([⟨"text", "foo is foofoo", "foo is foofoo", "", ""⟩] : List RichText).length ∧
     ∀ i : Nat,
       ((([⟨"text", "foo is foofoo", "foo is foofoo", "", ""⟩] : List RichText).getD i
            rtDefault).rtype = "text" →
          ((searchAndReplaceInRichText "foo" "bar"
              [⟨"text", "foo is foofoo", "foo is foofoo", "", ""⟩]).2.getD i rtDefault).content
            = strReplaceAll "foo" "bar"
                (([⟨"text", "foo is foofoo", "foo is foofoo", "", ""⟩] : List RichText).getD i
                  rtDefault).content ∧
          ((searchAndReplaceInRichText "foo" "bar"
              [⟨"text", "foo is foofoo", "foo is foofoo", "", ""⟩]).2.getD i rtDefault).linkUrl
            = strReplaceAll "foo" "bar"
                (([⟨"text", "foo is foofoo", "foo is foofoo", "", ""⟩] : List RichText).getD i
                  rtDefault).linkUrl) ∧
       ((searchAndReplaceInRichText "foo" "bar"
           [⟨"text", "foo is foofoo", "foo is foofoo", "", ""⟩]).2.getD i rtDefault).href
         = strReplaceAll "foo" "bar"
             (([⟨"text", "foo is foofoo", "foo is foofoo", "", ""⟩] : List RichText).getD i
               rtDefault).href ∧
       ((searchAndReplaceInRichText "foo" "bar"
           [⟨"text", "foo is foofoo", "foo is foofoo", "", ""⟩]).2.getD i rtDefault).rtype
         = (([⟨"text", "foo is foofoo", "foo is foofoo", "", ""⟩] : List RichText).getD i
             rtDefault).rtype ∧
       ((searchAndReplaceInRichText "foo" "bar"
           [⟨"text", "foo is foofoo", "foo is foofoo", "", ""⟩]).2.getD i rtDefault).plain
         = (([⟨"text", "foo is foofoo", "foo is foofoo", "", ""⟩] : List RichText).getD i
             rtDefault).plain) ∧
    updateItem "foo" "bar" ⟨"text", "foo is foofoo", "foo is foofoo", "", ""⟩
      = ⟨"text", "foo is foofoo", "bar is barbar", "", ""⟩ ∧
    updateItem "foo" "bar" ⟨"text", "Foo is FOO", "Foo is FOO", "", ""⟩
      = ⟨"text", "Foo is FOO", "Foo is FOO", "", ""⟩ :=
  c5_replace_all_fields "foo" "bar"
    [⟨"text", "foo is foofoo", "foo is foofoo", "", ""⟩] (by decide)

/-! ### Rich-Text Extractor and Content Assembler (copy-content script)

extractTextFromBlock of the copy script joins the plain_text of the spans for
the rich-text block types and for code blocks, emits a newline for a divider,
and skips tables and unknown types.  extractPageContent walks the page with
getAllBlocksFromPage, keeps the trimmed non-empty texts, joins them with
single spaces and then applies three global regular expression rewrites:
collapse each whitespace run to one space, insert a space after sentence
punctuation followed by an uppercase letter, and drop whitespace standing
before punctuation; a final trim finishes the content. -/

/-- Concatenation of the plain_text fields of a span list with no separator. -/
def joinPlainTexts (spans : List RichText) : String :=
  String.join (spans.map (fun s => s.plain))

/-- extractTextFromBlock of the copy script. -/
def extractTextFromBlockCopy (b : Block) : String :=
  if b.btype = "paragraph" ∨ b.btype = "heading_1" ∨ b.btype = "heading_2" ∨
     b.btype = "heading_3" ∨ b.btype = "bulleted_list_item" ∨
     b.btype = "numbered_list_item" ∨ b.btype = "to_do" ∨ b.btype = "quote" ∨
     b.btype = "callout" then joinPlainTexts b.richText
  else if b.btype = "code" then joinPlainTexts b.richText
  else if b.btype = "table" then ""
  else if b.btype = "divider" then "\n"
  else ""

/-- Whitespace class of the normalization rewrites. -/
def isWsChar (c : Char) : Bool :=
  c == ' ' || c == '\n' || c == '\r' || c == '\t'

/-- Sentence-ending punctuation of the second rewrite. -/
def isSentencePunct (c : Char) : Bool :=
  c == '.' || c == '!' || c == '?'

/-- Punctuation set of the third rewrite. -/
def isClosePunct (c : Char) : Bool :=
  c == '.' || c == ',' || c == ';' || c == ':' || c == '!' || c == '?'

/-- Ascii uppercase letter, the character class of the second rewrite. -/
def isUpperAscii (c : Char) : Bool :=
  decide ('A' ≤ c) && decide (c ≤ 'Z')

/-- First rewrite: every maximal whitespace run becomes one space. -/
def collapseWsGo (prevWs : Bool) : List Char → List Char
  | [] => []
  | c :: rest =>
    if isWsChar c then
      if prevWs then collapseWsGo true rest
      else ' ' :: collapseWsGo true rest
    else c :: collapseWsGo false rest

def collapseWs (l : List Char) : List Char := collapseWsGo false l

/-- Second rewrite: sentence punctuation, optional whitespace, uppercase
letter becomes punctuation, one space, the letter; scanning resumes after the
match, as a global regular expression replace does.  Every step consumes at
least one character, so a fuel of the length runs the scan to completion. -/
def sentenceSpaceGo : Nat → List Char → List Char
  | 0, l => l
  | _ + 1, [] => []
  | fuel + 1, c :: rest =>
    if isSentencePunct c then
      match rest.dropWhile isWsChar with
      | u :: rest2 =>
        if isUpperAscii u then c :: ' ' :: u :: sentenceSpaceGo fuel rest2
        else c :: sentenceSpaceGo fuel rest
      | [] => c :: sentenceSpaceGo fuel rest
    else c :: sentenceSpaceGo fuel rest

def sentenceSpace (l : List Char) : List Char := sentenceSpaceGo l.length l

/-- Third rewrite: a whitespace run directly followed by punctuation is
dropped, keeping only the punctuation. -/
def wsPunctGo : Nat → List Char → List Char
  | 0, l => l
  | _ + 1, [] => []
  | fuel + 1, c :: rest =>
    if isWsChar c then
      match (c :: rest).dropWhile isWsChar with
      | p :: rest2 =>
        if isClosePunct p then p :: wsPunctGo fuel rest2
        else c :: wsPunctGo fuel rest
      | [] => c :: wsPunctGo fuel rest
    else c :: wsPunctGo fuel rest

def wsBeforePunct (l : List Char) : List Char := wsPunctGo l.length l

/-- JavaScript String.trim on strings. -/
def jsTrimStr (s : String) : String := String.mk (jsTrim s.toList)

/-- The post-assembly normalization of flat mode, in source order: collapse
whitespace, space after sentence punctuation before an uppercase letter, drop
whitespace before punctuation, final trim. -/
def strNormalizeFlat (s : String) : String :=
  String.mk (jsTrim (wsBeforePunct (sentenceSpace (collapseWs s.toList))))

/-- extractPageContent of the copy script in flat mode: fetch all blocks,
extract each text, keep trimmed non-empty texts, join with single spaces and
normalize. -/
def extractPageContent (roots : List Block) : String :=
  let blocks := fetchPages roots
  let parts := blocks.foldr
    (fun b acc =>
      let t := extractTextFromBlockCopy b
      if t ≠ "" ∧ jsTrimStr t ≠ "" then jsTrimStr t :: acc else acc) []
  strNormalizeFlat (String.intercalate " " parts)

/-- C8.  A page of one heading_1 block with plain text Intro followed by one
paragraph block with plain text Hello world. extracts, in flat mode, to
exactly Intro Hello world. after normalization; and the three normalization
rewrites behave as described: whitespace runs collapse to one space, a space
is inserted after sentence punctuation directly followed by an uppercase
letter, and whitespace before punctuation is removed. -/
theorem c8_flat_extraction_scenario :
    extractPageContent
      [Block.mk 1 "heading_1" false [⟨"text", "Intro", "Intro", "", ""⟩] "default" none [],
       Block.mk 2 "paragraph" false [⟨"text", "Hello world.", "Hello world.", "", ""⟩]
         "default" none []]
      = "Intro Hello world." ∧
    strNormalizeFlat "a   b" = "a b" ∧
    strNormalizeFlat "Hi.There" = "Hi. There" ∧
    strNormalizeFlat "word ." = "word." := by
  have hfetch : fetchPages
      [Block.mk 1 "heading_1" false [⟨"text", "Intro", "Intro", "", ""⟩] "default" none [],
       Block.mk 2 "paragraph" false [⟨"text", "Hello world.", "Hello world.", "", ""⟩]
         "default" none []]
      = [Block.mk 1 "heading_1" false [⟨"text", "Intro", "Intro", "", ""⟩] "default" none [],
         Block.mk 2 "paragraph" false [⟨"text", "Hello world.", "Hello world.", "", ""⟩]
           "default" none []] := by
    rw [fetchPages]
    rw [List.take_of_length_le (by simp), List.drop_eq_nil_of_le (by simp)]
    rw [fetchPages]
    rw [fetchBatch, fetchBatch, fetchBatch]
    simp
  refine ⟨?_, by decide, by decide, by decide⟩
  simp only [extractPageContent, hfetch]
  decide

/-! ### Chunked Payload Writer (updatePageWithAudio)

The writer stores the base64 audio across the fields Content64, Content64_2,
Content64_3 and so on, one field per loop iteration in increasing index
order.  A server error is retried a bounded number of times and, if it keeps
failing, aborts the whole update through the outer catch, which reports
failure; a validation_error or path.not_found error on the destination field
stops the loop immediately and the writer reports success exactly when at
least one field was already written.  The outcome of writing one field is
abstracted as an oracle from the field index to one of: success, permanent
failure, fatal failure (a server error that survives every retry and reaches
the outer catch).  The pauses, the batch delays and the per-field sub-chunk
sizes do not affect which fields get written and are not modelled; the
special retry branch for field index 12 is dead code in the source, because
the retry counter has already been incremented when it is compared with
zero. -/

inductive FieldOutcome : Type where
  | ok : FieldOutcome
  | permanentErr : FieldOutcome
  | fatalErr : FieldOutcome
  deriving DecidableEq

/-- Destination field name for a chunk index: Content64 for the first chunk
and Content64_N, numbered from 2, for the following ones. -/
def fieldNameFor (i : Nat) : String :=
  if i = 0 then "Content64" else "Content64_" ++ toString (i + 1)

/-- The field loop.  The first argument counts the remaining iterations
(numChunks minus the current index); the accumulator collects the names of
the fields written so far, in write order.  Returns the reported success flag
and that list. -/
def updateLoop (out : Nat → FieldOutcome) : Nat → Nat → List String → Bool × List String
  | 0, _, acc => (!acc.isEmpty, acc)
  | remaining + 1, i, acc =>
    match out i with
    | .ok => updateLoop out remaining (i + 1) (acc ++ [fieldNameFor i])
    | .permanentErr => (!acc.isEmpty, acc)
    | .fatalErr => (false, acc)

/-- updatePageWithAudio: write the chunks one field at a time in increasing
index order, stopping early as the loop dictates. -/
def updatePageWithAudio (out : Nat → FieldOutcome) (numChunks : Nat) :
    Bool × List String :=
  updateLoop out numChunks 0 []

theorem updateLoop_run (out : Nat → FieldOutcome) :
    ∀ (m : Nat), ∀ (rem i : Nat) (acc : List String), m < rem →
      (∀ d, d < m → out (i + d) = .ok) → out (i + m) = .permanentErr →
      updateLoop out rem i acc
        = (!(acc ++ (List.range m).map (fun d => fieldNameFor (i + d))).isEmpty,
           acc ++ (List.range m).map (fun d => fieldNameFor (i + d))) := by
  intro m
  induction m with
  | zero =>
    intro rem i acc hrem hok hperm
    cases rem with
    | zero => omega
    | succ r =>
      rw [updateLoop]
      rw [show i + 0 = i from rfl] at hperm
      rw [hperm]
      simp
  | succ m ih =>
    intro rem i acc hrem hok hperm
    cases rem with
    | zero => omega
    | succ r =>
      rw [updateLoop]
      have h0 : out i = .ok := by
        have := hok 0 (by omega)
        simpa using this
      rw [h0]
      have hok2 : ∀ d, d < m → out (i + 1 + d) = .ok := by
        intro d hd
        have := hok (d + 1) (by omega)
        rw [show i + (d + 1) = i + 1 + d by omega] at this
        exact this
      have hperm2 : out (i + 1 + m) = .permanentErr := by
        rw [show i + 1 + m = i + (m + 1) by omega]
        exact hperm
      rw [ih r (i + 1) (acc ++ [fieldNameFor i]) (by omega) hok2 hperm2]
      have hlist : (acc ++ [fieldNameFor i])
            ++ (List.range m).map (fun d => fieldNameFor (i + 1 + d))
          = acc ++ (List.range (m + 1)).map (fun d => fieldNameFor (i + d)) := by
        rw [List.append_assoc]
        congr 1
        rw [List.range_succ_eq_map]
        simp only [List.map_cons, List.map_map, List.singleton_append, Nat.add_zero]
        congr 1
        apply List.map_congr_left
        intro d _
        simp only [Function.comp]
        congr 1
        omega
      rw [hlist]

/-- C7.  When every field before index k writes successfully and the write of
field k fails permanently (validation error or missing destination field),
the writer stops advancing: exactly the fields of index 0 to k - 1 are
written, one at a time in increasing index order, and the writer reports
success exactly when at least one field was written, accepting the stored
prefix as the artifact. -/
theorem c7_permanent_failure_stops (out : Nat → FieldOutcome) (n k : Nat)
    (hk : k < n) (hok : ∀ i, i < k → out i = .ok)
    (hperm : out k = .permanentErr) :
    updatePageWithAudio out n = (decide (0 < k), (List.range k).map fieldNameFor) := by
  unfold updatePageWithAudio
  have hok0 : ∀ d, d < k → out (0 + d) = .ok := by
    intro d hd
    simpa using hok d hd
  have hperm0 : out (0 + k) = .permanentErr := by simpa using hperm
  rw [updateLoop_run out k n 0 [] hk hok0 hperm0]
  simp only [List.nil_append, Nat.zero_add]
  cases k with
  | zero => simp
  | succ k0 => simp [List.range_succ]

/-- C7 witnessed with five chunks whose third destination field is missing:
the two existing fields are written in order and success is reported. -/
theorem c7_witness :
    updatePageWithAudio (fun i => if i < 2 then .ok else .permanentErr) 5
      = (decide (0 < 2), (List.range 2).map fieldNameFor) :=
  c7_permanent_failure_stops (fun i => if i < 2 then .ok else .permanentErr) 5 2
    (by decide) (by decide) (by decide)

end NotionEdit
